import Mathlib

/-
Shallow embedding of the `Classification` goal of `df/goals.py` (class
`Classification(Goal)`).

Modelling conventions, fixed once for the whole development:

* float32 values are idealized as exact rationals (`ℚ`); the spec states its
  numeric properties "up to floating-point summation order", so rational
  arithmetic is the intended reading.  `entropy` returns a real number since it
  involves the natural logarithm.
* the feature set `es` is a function sending a channel index and an exemplar
  index to the integer label stored there (the code only ever reads
  `es[self.channel, index, 0]`).
* the optional `weights` argument is `Option (Nat → ℚ)`: `none` is Python's
  `None` (each exemplar counts 1), `some w` maps exemplar indices to weights.
* operations that can raise in Python (`numpy.bincount` on an empty array,
  broadcast shape mismatches, `numpy.fromstring` on a byte string whose size is
  not a multiple of the element size) return `Option` values, with `none` for
  the raised exception.  The code targets the numpy generation named in its own
  comments ("When numpy 1.6.0 becomes common ..."), where `numpy.bincount`
  rejects an empty first argument - which is exactly why `stats` special-cases
  the empty index set while `summary` does not.
* the special float values produced by unguarded division by a zero sum in
  `answer` are modelled by the carrier `QF` (finite rational, nan, +inf, -inf).
* a serialized stats/summary entity (`.tostring()` of a float32 array) is a raw
  string of 4 bytes per entry, no header or padding; `fromstring` is modelled on
  byte strings (`List Nat`) with an exact little-endian IEEE-754 binary32
  decoder for the finite encodings.
-/

/-- A feature set: `es c i` is the integer label stored in channel `c` for
exemplar `i`; the code reads it as `es[self.channel, index, 0]`. -/
def FeatureSet : Type := Nat → Nat → Nat

/-- Configuration stored by `Classification.__init__`: the number of classes and
the index of the ground-truth channel. -/
structure Classification where
  classCount : Nat
  channel : Nat
deriving DecidableEq

/-- `Classification.__init__` stores its two arguments without any validation;
construction cannot fail, modelled by always returning `some`. -/
def Classification.init (classCount channel : Nat) : Option Classification :=
  some { classCount := classCount, channel := channel }

/-- `clone` builds a new instance carrying the same configuration. -/
def Classification.clone (g : Classification) : Classification :=
  { classCount := g.classCount, channel := g.channel }

/-- The (label, weight) pairs that reach `numpy.bincount`: labels are
`es[self.channel, index, 0]`, weights are `weights[index]` when supplied and 1
per exemplar otherwise. -/
def labelWeightPairs (channel : Nat) (es : FeatureSet) (index : List Nat)
    (weights : Option (Nat → ℚ)) : List (Nat × ℚ) :=
  index.map (fun i => (es channel i, match weights with | some w => w i | none => 1))

/-- Total weight that `numpy.bincount` accumulates in bucket `c`. -/
def binVal (P : List (Nat × ℚ)) (c : Nat) : ℚ :=
  ((P.filter (fun p => p.1 == c)).map Prod.snd).sum

/-- Largest label occurring in the bincount input (0 for the empty list). -/
def maxLab (P : List (Nat × ℚ)) : Nat :=
  (P.map Prod.fst).foldr max 0

/-- `numpy.bincount`: raises on an empty first argument (the numpy generation
this code targets; the explicit empty-index branch in `stats` exists for this
reason), otherwise returns the per-bucket weight sums for buckets
`0 .. max label`. -/
def bincount (P : List (Nat × ℚ)) : Option (List ℚ) :=
  if P = [] then none
  else some ((List.range (maxLab P + 1)).map (binVal P))

/-- Right-padding with zeros up to length `n`
(`numpy.concatenate((ret, numpy.zeros(classCount - ret.shape[0])))`, applied
when `ret.shape[0] < classCount`); a list already at least `n` long is returned
unchanged, exactly as in the source. -/
def padTo (l : List ℚ) (n : Nat) : List ℚ :=
  l ++ List.replicate (n - l.length) 0

/-- `Classification.stats`: histogram of the exemplars reaching a node.  An
empty index set short-circuits to `numpy.zeros(classCount)`; otherwise the
bincount result is padded on the right to `classCount` entries. -/
def Classification.stats (g : Classification) (es : FeatureSet) (index : List Nat)
    (weights : Option (Nat → ℚ)) : Option (List ℚ) :=
  if index ≠ [] then
    (bincount (labelWeightPairs g.channel es index weights)).map
      (fun ret => padTo ret g.classCount)
  else
    some (List.replicate g.classCount 0)

/-- `ret[:toAdd.shape[0]] += toAdd`: elementwise addition of `toAdd` into the
first entries of `ret`; numpy raises a broadcast error when `toAdd` is longer
than `ret`. -/
def sliceAdd (ret toAdd : List ℚ) : Option (List ℚ) :=
  if toAdd.length ≤ ret.length then
    some (List.zipWith (fun a b => a + b) ret (padTo toAdd ret.length))
  else none

/-- `Classification.updateStats`: deserializes the existing histogram, bincounts
the new exemplars and adds the result into the low-indexed entries. -/
def Classification.updateStats (g : Classification) (stats : List ℚ) (es : FeatureSet)
    (index : List Nat) (weights : Option (Nat → ℚ)) : Option (List ℚ) :=
  (bincount (labelWeightPairs g.channel es index weights)).bind
    (fun toAdd => sliceAdd stats toAdd)

/-- The `1e-6` threshold of `entropy`, idealized as the exact rational. -/
def histEps : ℚ := 1 / 1000000

/-- `Classification.entropy`: `dist = dist[dist>1e-6] / dist.sum()` followed by
`-(dist*numpy.log(dist)).sum()`.  Note the divisor is the sum of the FULL
histogram (`dist.sum()` is evaluated before `dist` is rebound), including any
entries that the `> 1e-6` filter discards. -/
noncomputable def Classification.entropy (_g : Classification) (stats : List ℚ) : ℝ :=
  -(((stats.filter (fun x => histEps < x)).map
      (fun x => ((x / stats.sum : ℚ) : ℝ) * Real.log ((x / stats.sum : ℚ) : ℝ))).sum)

/-- Carrier for the `answer` computation: finite float values are exact
rationals, and `nan` / `inf` / `ninf` model the IEEE special values that
numpy produces on the unguarded divisions (`dist / dist.sum()`,
`prob /= prob.sum()`). -/
inductive QF where
  | num (q : ℚ)
  | nan
  | inf
  | ninf
deriving DecidableEq

/-- Float addition on the carrier: nan propagates, opposite infinities give nan. -/
def QF.add : QF → QF → QF
  | num a, num b => num (a + b)
  | nan, _ => nan
  | _, nan => nan
  | inf, ninf => nan
  | ninf, inf => nan
  | inf, _ => inf
  | _, inf => inf
  | ninf, _ => ninf
  | _, ninf => ninf

/-- Float division on the carrier: division by zero gives nan for `0/0` and a
signed infinity otherwise; nan propagates; `inf/inf` is nan. -/
def QF.div : QF → QF → QF
  | num a, num b =>
      if b = 0 then (if a = 0 then nan else if 0 < a then inf else ninf)
      else num (a / b)
  | nan, _ => nan
  | _, nan => nan
  | inf, num b => if 0 ≤ b then inf else ninf
  | ninf, num b => if 0 ≤ b then ninf else inf
  | num _, inf => num 0
  | num _, ninf => num 0
  | inf, inf => nan
  | inf, ninf => nan
  | ninf, inf => nan
  | ninf, ninf => nan

/-- The strict `>` comparison performed by numpy's argmax loop; every comparison
involving nan is false, so nan never displaces the running maximum. -/
def QF.gtb : QF → QF → Bool
  | num a, num b => decide (b < a)
  | nan, _ => false
  | _, nan => false
  | inf, inf => false
  | inf, _ => true
  | _, inf => false
  | ninf, _ => false
  | _, ninf => true

/-- `numpy.sum` over the carrier (left fold from 0). -/
def qfSum (l : List QF) : QF :=
  l.foldl QF.add (QF.num 0)

/-- The argmax loop: running maximum starting at index 0, updated only on a
strictly greater element, so ties resolve to the lowest index. -/
def argmaxGo (best : Nat) (bv : QF) (i : Nat) : List QF → Nat
  | [] => best
  | v :: rest => if QF.gtb v bv then argmaxGo i v (i + 1) rest else argmaxGo best bv (i + 1) rest

/-- `numpy.argmax` over the carrier (0 on the empty list, which the claims never
exercise). -/
def argmaxQF : List QF → Nat
  | [] => 0
  | v :: rest => argmaxGo 0 v 1 rest

/-- The accumulation loop of `answer`
(`for stats in stats_list: prob += dist / dist.sum()`): each entity's histogram
is divided elementwise by its own sum and added into the accumulator.  A shape
mismatch in the `+=` (numpy broadcast error) yields `none`; zero sums yield
special values, not errors. -/
def probAccum (acc : List QF) : List (List ℚ) → Option (List QF)
  | [] => some acc
  | s :: rest =>
      if (s.map (fun x => QF.div (QF.num x) (QF.num s.sum))).length = acc.length then
        probAccum (List.zipWith QF.add acc
          (s.map (fun x => QF.div (QF.num x) (QF.num s.sum)))) rest
      else none

/-- The combined class distribution of `answer`: start from
`numpy.zeros(classCount)`, accumulate each entity's normalized histogram, then
divide by the total (`prob /= prob.sum()`). -/
def Classification.probOf (g : Classification) (statsList : List (List ℚ)) :
    Option (List QF) :=
  (probAccum (List.replicate g.classCount (QF.num 0)) statsList).map
    (fun prob => prob.map (fun x => QF.div x (qfSum prob)))

/-- Result of `make_answer`: a distribution for `'prob'`, a class index for
`'best'`, and the Python `None` that the function silently returns (by falling
off the end of the `if`/`elif`) for any other name. -/
inductive Ans where
  | probOf (p : List QF)
  | bestOf (i : Nat)
  | noneVal
deriving DecidableEq

/-- `make_answer` from the source. -/
def makeAnswer (prob : List QF) (t : String) : Ans :=
  if t = "prob" then Ans.probOf prob
  else if t = "best" then Ans.bestOf (argmaxQF prob)
  else Ans.noneVal

/-- `Classification.answer` with `which` already a list of names.  The combined
distribution is only computed when `'prob'` or `'best'` is requested, so a
request containing neither never touches `stats_list` (modelled by handing
`make_answer` an arbitrary unused distribution). -/
def Classification.answerMulti (g : Classification) (statsList : List (List ℚ))
    (which : List String) : Option (List Ans) :=
  if "prob" ∈ which ∨ "best" ∈ which then
    (g.probOf statsList).map (fun prob => which.map (makeAnswer prob))
  else
    some (which.map (makeAnswer []))

/-- `Classification.answer` with `which` a single string: the code wraps it in a
list and returns `ret[0]`. -/
def Classification.answer (g : Classification) (statsList : List (List ℚ))
    (t : String) : Option Ans :=
  (g.answerMulti statsList [t]).map (fun r => r.getD 0 Ans.noneVal)

/-- `Classification.answer_types`: the catalog of answer kinds, keyed by name. -/
def Classification.answer_types (_g : Classification) : List (String × String) :=
  [("best",
    "An integer indexing the class this feature is most likelly to belong to given the model."),
   ("prob",
    "A categorical distribution over class membership, represented as a numpy array of float32 type. Gives the probability of it belonging to each class.")]

/-- `Classification.summary`: identical accumulation to `stats` except that the
empty index set is NOT special-cased, so it goes straight to `numpy.bincount`. -/
def Classification.summary (g : Classification) (es : FeatureSet) (index : List Nat)
    (weights : Option (Nat → ℚ)) : Option (List ℚ) :=
  (bincount (labelWeightPairs g.channel es index weights)).map
    (fun ret => padTo ret g.classCount)

/-- `Classification.updateSummary`: same body as `updateStats`. -/
def Classification.updateSummary (g : Classification) (summary : List ℚ) (es : FeatureSet)
    (index : List Nat) (weights : Option (Nat → ℚ)) : Option (List ℚ) :=
  (bincount (labelWeightPairs g.channel es index weights)).bind
    (fun toAdd => sliceAdd summary toAdd)

/-- Broadcasting elementwise combination of two 1-D arrays: numpy accepts equal
lengths or a length-1 operand and raises otherwise. -/
def bcast2 (f : ℚ → ℚ → ℚ) (a b : List ℚ) : Option (List ℚ) :=
  if a.length = b.length then some (List.zipWith f a b)
  else if a.length = 1 then some (b.map (f (a.getD 0 0)))
  else if b.length = 1 then some (a.map (fun x => f x (b.getD 0 0)))
  else none

/-- `Classification.error`: `dist` is the stats histogram divided by its sum,
`count` the sum of the summary histogram, and the error
`((1.0-dist)*test).sum() / count`, returned as the pair `(error, count)`. -/
def Classification.error (_g : Classification) (stats summary : List ℚ) :
    Option (ℚ × ℚ) :=
  (bcast2 (fun d t => (1 - d) * t) (stats.map (fun x => x / stats.sum)) summary).map
    (fun l => (l.sum / summary.sum, summary.sum))

/-- Grouping of a byte string into 4-byte words; fails unless the length is a
multiple of 4 (`numpy.fromstring`: string size must be a multiple of element
size). -/
def chunk4 : List Nat → Option (List (Nat × Nat × Nat × Nat))
  | [] => some []
  | b0 :: b1 :: b2 :: b3 :: rest => (chunk4 rest).map (fun l => (b0, b1, b2, b3) :: l)
  | _ => none

/-- Value of one little-endian IEEE-754 binary32 word as an exact rational; the
non-finite encodings (exponent field 255) fall outside the rational model and
give `none`. -/
def decode4 : Nat × Nat × Nat × Nat → Option ℚ
  | (b0, b1, b2, b3) =>
    let word : Nat := b0 + 256 * b1 + 65536 * b2 + 16777216 * b3
    let sign : ℚ := if word / 2 ^ 31 % 2 = 0 then 1 else -1
    let ex : Nat := word / 2 ^ 23 % 256
    let frac : Nat := word % 2 ^ 23
    if ex = 255 then none
    else if ex = 0 then some (sign * (frac : ℚ) / 2 ^ 149)
    else some (sign * (2 ^ 23 + (frac : ℚ)) * (2 : ℚ) ^ ((ex : ℤ) - 150))

/-- Decoding of every 4-byte word of a grouped buffer. -/
def decodeAll : List (Nat × Nat × Nat × Nat) → Option (List ℚ)
  | [] => some []
  | w :: ws => (decode4 w).bind (fun v => (decodeAll ws).map (fun l => v :: l))

/-- `numpy.fromstring(s, dtype=numpy.float32)` over the byte-string model. -/
def fromstring (s : List Nat) : Option (List ℚ) :=
  (chunk4 s).bind decodeAll

/-- `entropy` applied to a raw serialized buffer. -/
noncomputable def Classification.entropyBytes (g : Classification) (s : List Nat) : Option ℝ :=
  (fromstring s).map (fun h => g.entropy h)

/-- `updateStats` applied to a raw serialized buffer. -/
def Classification.updateStatsBytes (g : Classification) (s : List Nat) (es : FeatureSet)
    (index : List Nat) (weights : Option (Nat → ℚ)) : Option (List ℚ) :=
  (fromstring s).bind (fun h => g.updateStats h es index weights)

/-- Byte length of the serialized form of a histogram (`.tostring()` of a
float32 array: exactly 4 bytes per entry, no header, length prefix or
padding). -/
def serializedByteLength (h : List ℚ) : Nat :=
  4 * h.length

/-- Entries of `List.replicate n 0` read through `getD` are zero. -/
theorem getD_replicate_zero (n c : Nat) : (List.replicate n (0 : ℚ)).getD c 0 = 0 := by
  rcases Nat.lt_or_ge c n with h | h
  · rw [List.getD_eq_getElem _ _ (by simpa using h)]
    simp
  · exact List.getD_eq_default _ _ (by simpa using h)

/-- Zero-padding never changes the value read at any index. -/
theorem padTo_getD (l : List ℚ) (n c : Nat) : (padTo l n).getD c 0 = l.getD c 0 := by
  rcases Nat.lt_or_ge c l.length with h | h
  · exact List.getD_append _ _ _ _ h
  · rw [padTo, List.getD_append_right _ _ _ _ h, List.getD_eq_default _ _ h]
    exact getD_replicate_zero _ _

/-- Padding a list no longer than `n` yields length exactly `n`. -/
theorem padTo_length (l : List ℚ) (n : Nat) (h : l.length ≤ n) : (padTo l n).length = n := by
  simp only [padTo, List.length_append, List.length_replicate]
  omega

/-- Unfolding of `maxLab` on a cons cell. -/
theorem maxLab_cons (a : Nat × ℚ) (t : List (Nat × ℚ)) :
    maxLab (a :: t) = max a.1 (maxLab t) := rfl

/-- Every label in the bincount input is bounded by `maxLab`. -/
theorem le_maxLab {P : List (Nat × ℚ)} {p : Nat × ℚ} (hp : p ∈ P) : p.1 ≤ maxLab P := by
  induction P with
  | nil => cases hp
  | cons a t ih =>
    rw [maxLab_cons]
    rcases List.mem_cons.1 hp with h | h
    · subst h
      exact Nat.le_max_left _ _
    · exact Nat.le_trans (ih h) (Nat.le_max_right _ _)

/-- `maxLab` of a nonempty input with all labels below `n` is below `n`. -/
theorem maxLab_lt {P : List (Nat × ℚ)} {n : Nat} (hne : P ≠ []) (h : ∀ p ∈ P, p.1 < n) :
    maxLab P < n := by
  induction P with
  | nil => exact absurd rfl hne
  | cons a t ih =>
    rw [maxLab_cons]
    rcases eq_or_ne t [] with ht | ht
    · subst ht
      simpa [maxLab] using h a (List.mem_cons_self a [])
    · exact max_lt (h a (List.mem_cons_self a t))
        (ih ht (fun p hp => h p (List.mem_cons_of_mem _ hp)))

/-- Bucket values are additive under concatenation of bincount inputs. -/
theorem binVal_append (P Q : List (Nat × ℚ)) (c : Nat) :
    binVal (P ++ Q) c = binVal P c + binVal Q c := by
  simp [binVal, List.filter_append]

/-- Bucket values are non-negative when all weights are. -/
theorem binVal_nonneg {P : List (Nat × ℚ)} (hP : ∀ p ∈ P, 0 ≤ p.2) (c : Nat) :
    0 ≤ binVal P c := by
  refine List.sum_nonneg ?_
  intro x hx
  rcases List.mem_map.1 hx with ⟨p, hp, rfl⟩
  exact hP p (List.mem_of_mem_filter hp)

/-- Buckets above every occurring label are empty. -/
theorem binVal_eq_zero {P : List (Nat × ℚ)} {c : Nat} (h : maxLab P < c) : binVal P c = 0 := by
  have hf : P.filter (fun p => p.1 == c) = [] := by
    refine List.filter_eq_nil_iff.2 ?_
    intro p hp hc
    have hpc : p.1 = c := by simpa using hc
    have := le_maxLab hp
    omega
  simp [binVal, hf]

/-- Reading a mapped range through `getD`. -/
theorem getD_range_map (f : Nat → ℚ) (m c : Nat) :
    ((List.range m).map f).getD c 0 = if c < m then f c else 0 := by
  rcases Nat.lt_or_ge c m with h | h
  · rw [List.getD_eq_getElem _ _ (by simpa using h), if_pos h]
    simp
  · rw [List.getD_eq_default _ _ (by simpa using h), if_neg (by omega)]

/-- On a nonempty input, `bincount` succeeds, has length `maxLab + 1`, and reads
back the bucket values at every index. -/
theorem bincount_getD {P : List (Nat × ℚ)} (hne : P ≠ []) :
    ∃ bc, bincount P = some bc ∧ bc.length = maxLab P + 1 ∧
      ∀ c, bc.getD c 0 = binVal P c := by
  refine ⟨(List.range (maxLab P + 1)).map (binVal P), by simp [bincount, hne], by simp, ?_⟩
  intro c
  rw [getD_range_map]
  split
  · rfl
  · exact (binVal_eq_zero (by omega)).symm

/-- The bincount input of a concatenated index set splits accordingly. -/
theorem labelWeightPairs_append (ch : Nat) (es : FeatureSet) (I1 I2 : List Nat)
    (w : Option (Nat → ℚ)) :
    labelWeightPairs ch es (I1 ++ I2) w =
      labelWeightPairs ch es I1 w ++ labelWeightPairs ch es I2 w := by
  simp [labelWeightPairs]

/-- All labels fed to bincount are in range when the channel values are. -/
theorem labelWeightPairs_fst_lt {ch : Nat} {es : FeatureSet} {I : List Nat}
    {w : Option (Nat → ℚ)} {n : Nat} (h : ∀ i ∈ I, es ch i < n) :
    ∀ p ∈ labelWeightPairs ch es I w, p.1 < n := by
  intro p hp
  rcases List.mem_map.1 hp with ⟨i, hi, rfl⟩
  exact h i hi

/-- All weights fed to bincount are non-negative when the supplied weights are
(absent weights count 1 per exemplar). -/
theorem labelWeightPairs_snd_nonneg {ch : Nat} {es : FeatureSet} {I : List Nat}
    {w : Option (Nat → ℚ)} (hw : ∀ f, w = some f → ∀ i, 0 ≤ f i) :
    ∀ p ∈ labelWeightPairs ch es I w, 0 ≤ p.2 := by
  intro p hp
  rcases List.mem_map.1 hp with ⟨i, hi, rfl⟩
  cases w with
  | none => norm_num
  | some f => exact hw f rfl i

/-- Lists of equal length agreeing on every `getD` read are equal. -/
theorem list_ext_getD {a b : List ℚ} (hl : a.length = b.length)
    (h : ∀ c, a.getD c 0 = b.getD c 0) : a = b := by
  refine List.ext_getElem hl ?_
  intro i h1 h2
  rw [← List.getD_eq_getElem a 0 h1, ← List.getD_eq_getElem b 0 h2]
  exact h i

/-- Value-level characterization of `stats` on in-range labels: it succeeds and
returns the length-`classCount` histogram whose bucket `c` holds the raw weight
sum of the exemplars labelled `c`. -/
theorem stats_spec (g : Classification) (es : FeatureSet) (index : List Nat)
    (w : Option (Nat → ℚ)) (hlab : ∀ i ∈ index, es g.channel i < g.classCount) :
    ∃ h, g.stats es index w = some h ∧ h.length = g.classCount ∧
      ∀ c, h.getD c 0 = binVal (labelWeightPairs g.channel es index w) c := by
  rcases eq_or_ne index [] with hi | hi
  · subst hi
    refine ⟨List.replicate g.classCount 0, by simp [Classification.stats], by simp, ?_⟩
    intro c
    rw [getD_replicate_zero]
    simp [labelWeightPairs, binVal]
  · have hPne : labelWeightPairs g.channel es index w ≠ [] := by
      simpa [labelWeightPairs] using hi
    obtain ⟨bc, hbc, hlen, hgetD⟩ := bincount_getD hPne
    have hmax : maxLab (labelWeightPairs g.channel es index w) < g.classCount :=
      maxLab_lt hPne (labelWeightPairs_fst_lt hlab)
    refine ⟨padTo bc g.classCount, ?_, ?_, ?_⟩
    · simp [Classification.stats, hi, hbc]
    · exact padTo_length _ _ (by omega)
    · intro c
      rw [padTo_getD, hgetD]

/-- Value-level characterization of the slice-plus-add step. -/
theorem sliceAdd_spec (ret toAdd : List ℚ) (h : toAdd.length ≤ ret.length) :
    ∃ l, sliceAdd ret toAdd = some l ∧ l.length = ret.length ∧
      ∀ c, l.getD c 0 = ret.getD c 0 + toAdd.getD c 0 := by
  refine ⟨List.zipWith (fun a b => a + b) ret (padTo toAdd ret.length),
    by simp [sliceAdd, h], ?_, ?_⟩
  · simp [List.length_zipWith, padTo_length _ _ h]
  · intro c
    rcases Nat.lt_or_ge c ret.length with hc | hc
    · have hz : c < (List.zipWith (fun a b => a + b) ret (padTo toAdd ret.length)).length := by
        rw [List.length_zipWith, padTo_length _ _ h]
        omega
      rw [List.getD_eq_getElem _ _ hz, List.getElem_zipWith,
        ← List.getD_eq_getElem ret 0 hc,
        ← List.getD_eq_getElem (padTo toAdd ret.length) 0 (by rw [padTo_length _ _ h]; omega),
        padTo_getD]
    · rw [List.getD_eq_default _ _ (by rw [List.length_zipWith, padTo_length _ _ h]; omega),
        List.getD_eq_default _ _ hc, List.getD_eq_default _ _ (by omega)]
      norm_num

/-- Value-level characterization of `updateStats` on a well-shaped entity and a
nonempty index set with in-range labels. -/
theorem updateStats_spec (g : Classification) (s : List ℚ) (es : FeatureSet)
    (index : List Nat) (w : Option (Nat → ℚ)) (hne : index ≠ [])
    (hlab : ∀ i ∈ index, es g.channel i < g.classCount) (hs : s.length = g.classCount) :
    ∃ h, g.updateStats s es index w = some h ∧ h.length = g.classCount ∧
      ∀ c, h.getD c 0 = s.getD c 0 + binVal (labelWeightPairs g.channel es index w) c := by
  have hPne : labelWeightPairs g.channel es index w ≠ [] := by
    simpa [labelWeightPairs] using hne
  obtain ⟨bc, hbc, hlen, hgetD⟩ := bincount_getD hPne
  have hmax : maxLab (labelWeightPairs g.channel es index w) < g.classCount :=
    maxLab_lt hPne (labelWeightPairs_fst_lt hlab)
  obtain ⟨l, hsl, hslen, hgl⟩ := sliceAdd_spec s bc (by omega)
  refine ⟨l, ?_, by omega, ?_⟩
  · simp [Classification.updateStats, hbc, hsl]
  · intro c
    rw [hgl, hgetD]

/-- C1, amended: for disjoint index sets with labels in `[0, classCount)` and
non-negative weights, and a NONEMPTY second index set, updating the statistics
of `I1` with the exemplars of `I2` gives exactly the statistics of the union
`I1 ++ I2`.  (With an empty `I2` the code instead raises from
`numpy.bincount`, see the counterexample.) -/
theorem c1_stats_update_additivity (g : Classification) (es : FeatureSet)
    (I1 I2 : List Nat) (w : Option (Nat → ℚ)) (_hdisj : I1.Disjoint I2)
    (hlab : ∀ i ∈ I1 ++ I2, es g.channel i < g.classCount)
    (_hw : ∀ f, w = some f → ∀ i, 0 ≤ f i) (hne : I2 ≠ []) :
    (g.stats es I1 w).bind (fun s => g.updateStats s es I2 w) =
      g.stats es (I1 ++ I2) w := by
  have hlab1 : ∀ i ∈ I1, es g.channel i < g.classCount := by
    intro i hi
    exact hlab i (by simp [hi])
  have hlab2 : ∀ i ∈ I2, es g.channel i < g.classCount := by
    intro i hi
    exact hlab i (by simp [hi])
  obtain ⟨h1, hs1, hl1, hg1⟩ := stats_spec g es I1 w hlab1
  obtain ⟨h2, hs2, hl2, hg2⟩ := updateStats_spec g h1 es I2 w hne hlab2 hl1
  obtain ⟨h3, hs3, hl3, hg3⟩ := stats_spec g es (I1 ++ I2) w hlab
  rw [hs1, hs3]
  simp only [Option.some_bind]
  rw [hs2]
  congr 1
  refine list_ext_getD (by omega) ?_
  intro c
  rw [hg2, hg3, labelWeightPairs_append, binVal_append, hg1]

/-- Witness for C1: three exemplars of the spec's six-label scenario updated
with the other three equal the statistics of all six. -/
theorem c1_stats_update_additivity_witness :
    (((⟨3, 0⟩ : Classification).stats (fun _ i => [0, 0, 1, 2, 2, 2].getD i 0) [0, 1, 2] none).bind
      (fun s => (⟨3, 0⟩ : Classification).updateStats s
        (fun _ i => [0, 0, 1, 2, 2, 2].getD i 0) [3, 4, 5] none)) =
      (⟨3, 0⟩ : Classification).stats (fun _ i => [0, 0, 1, 2, 2, 2].getD i 0)
        ([0, 1, 2] ++ [3, 4, 5]) none :=
  c1_stats_update_additivity ⟨3, 0⟩ _ [0, 1, 2] [3, 4, 5] none
    (by intro a ha hb; simp at ha hb; omega)
    (by decide) (fun f hf => by cases hf) (by decide)

/-- C1 counterexample: the claim quantifies over ALL disjoint index sets, but
with `I2 = []` the update side raises from `numpy.bincount` on an empty array
(modelled `none`) while `stats` of the union returns the histogram. -/
theorem c1_empty_update_counterexample :
    (((⟨2, 0⟩ : Classification).stats (fun _ _ => 0) [0] none).bind
      (fun s => (⟨2, 0⟩ : Classification).updateStats s (fun _ _ => 0) [] none)) = none
    ∧ (⟨2, 0⟩ : Classification).stats (fun _ _ => 0) ([0] ++ []) none = some [1, 0] := by
  constructor
  · norm_num [Classification.stats, Classification.updateStats, bincount, labelWeightPairs]
  · norm_num [Classification.stats, bincount, labelWeightPairs, maxLab, binVal, padTo,
      List.range_succ, List.replicate]

/-- C5, amended: `summary` coincides with `stats` on every NONEMPTY index set,
and `updateSummary` coincides with `updateStats` on all inputs; on the empty
index set `summary` instead raises from `numpy.bincount` (see the
counterexample). -/
theorem c5_summary_matches_stats :
    (∀ (g : Classification) (es : FeatureSet) (index : List Nat) (w : Option (Nat → ℚ)),
      index ≠ [] → g.summary es index w = g.stats es index w)
    ∧ (∀ (g : Classification) (s : List ℚ) (es : FeatureSet) (index : List Nat)
        (w : Option (Nat → ℚ)), g.updateSummary s es index w = g.updateStats s es index w) := by
  constructor
  · intro g es index w hne
    simp [Classification.summary, Classification.stats, hne]
  · intro g s es index w
    rfl

/-- Witness for C5 at a concrete nonempty index set. -/
theorem c5_summary_matches_stats_witness :
    (⟨3, 0⟩ : Classification).summary (fun _ i => [0, 0, 1, 2, 2, 2].getD i 0) [0, 1, 2] none =
      (⟨3, 0⟩ : Classification).stats (fun _ i => [0, 0, 1, 2, 2, 2].getD i 0) [0, 1, 2] none :=
  c5_summary_matches_stats.1 ⟨3, 0⟩ _ [0, 1, 2] none (by decide)

/-- C5 counterexample: on the empty index set `summary` raises from
`numpy.bincount` (modelled `none`) while `stats` returns the all-zero
histogram, so the two are NOT identical on every input. -/
theorem c5_empty_index_counterexample :
    (⟨2, 0⟩ : Classification).summary (fun _ _ => 0) [] none = none
    ∧ (⟨2, 0⟩ : Classification).stats (fun _ _ => 0) [] none = some [0, 0] := by
  constructor
  · norm_num [Classification.summary, bincount, labelWeightPairs]
  · norm_num [Classification.stats, List.replicate]

/-- C6, amended: `__init__` performs no validation whatsoever — every
`(classCount, channel)` pair, including `classCount = 0`, is stored as-is and
construction always succeeds. -/
theorem c6_constructor_accepts_everything (classCount channel : Nat) :
    Classification.init classCount channel = some ⟨classCount, channel⟩ := rfl

/-- C6 counterexample: constructing with the invalid `classCount = 0` does not
fail; it produces a usable object, and even the first use does not necessarily
fail either (`stats` on an empty index set returns an empty histogram). -/
theorem c6_no_validation_counterexample :
    Classification.init 0 0 = some ⟨0, 0⟩
    ∧ (⟨0, 0⟩ : Classification).stats (fun _ _ => 0) [] none = some [] := by
  constructor
  · rfl
  · rfl

/-- C8, amended: requesting any answer-type name other than the catalog keys
`'best'` and `'prob'` does NOT raise: `make_answer` falls off the end of its
`if`/`elif` chain, so `answer` silently returns Python `None`. -/
theorem c8_unknown_answer_returns_none (g : Classification) (sl : List (List ℚ))
    (t : String) (h : ∀ k ∈ g.answer_types.map Prod.fst, t ≠ k) :
    g.answer sl t = some Ans.noneVal := by
  have hp : t ≠ "prob" := h "prob" (by simp [Classification.answer_types])
  have hb : t ≠ "best" := h "best" (by simp [Classification.answer_types])
  have hcond : ¬(("prob" ∈ [t]) ∨ ("best" ∈ [t])) := by
    simp only [List.mem_singleton]
    rintro (h1 | h1)
    · exact hp h1.symm
    · exact hb h1.symm
  rw [Classification.answer, Classification.answerMulti, if_neg hcond]
  simp [makeAnswer, hp, hb]

/-- Witness for C8 at the concrete unknown name 'median'. -/
theorem c8_unknown_answer_returns_none_witness :
    (⟨2, 0⟩ : Classification).answer [[2, 3]] "median" = some Ans.noneVal :=
  c8_unknown_answer_returns_none ⟨2, 0⟩ [[2, 3]] "median" (by decide)

/-- C8 counterexample: the unknown name 'foo' yields `some Ans.noneVal`
(Python `None`), not a failure, against the claim's required clear error. -/
theorem c8_unknown_answer_counterexample :
    (⟨2, 0⟩ : Classification).answer [[1, 1]] "foo" = some Ans.noneVal := by
  rw [Classification.answer, Classification.answerMulti, if_neg (by decide)]
  rfl

/-- C10: `answer` has no guard for a zero-sum histogram.  On a stats list
holding one all-zero histogram the per-entity normalization divides 0 by 0,
every entry of the combined distribution is nan, no error is raised (the
result is `some`, not `none`), and 'best' is the argmax of the
nan-contaminated distribution (index 0, since nan never wins a `>`
comparison). -/
theorem c10_zero_sum_nan :
    (⟨2, 0⟩ : Classification).answer [[0, 0]] "prob" = some (Ans.probOf [QF.nan, QF.nan])
    ∧ (⟨2, 0⟩ : Classification).answer [[0, 0]] "best" = some (Ans.bestOf 0) := by
  constructor
  · norm_num [Classification.answer, Classification.answerMulti, Classification.probOf,
      probAccum, qfSum, QF.div, QF.add, makeAnswer, List.replicate, List.zipWith, List.foldl]
  · norm_num [Classification.answer, Classification.answerMulti, Classification.probOf,
      probAccum, qfSum, QF.div, QF.add, makeAnswer, argmaxQF, argmaxGo, QF.gtb,
      List.replicate, List.zipWith, List.foldl]
    intro h
    exact absurd h (by decide)

/-- Sum of an elementwise combination of two equal-length lists, as an indexed
sum over the common range. -/
theorem zipWith_sum_eq (f : ℚ → ℚ → ℚ) (a b : List ℚ) (h : a.length = b.length) :
    (List.zipWith f a b).sum =
      Finset.sum (Finset.range a.length) (fun i => f (a.getD i 0) (b.getD i 0)) := by
  induction a generalizing b with
  | nil => simp
  | cons x t ih =>
    cases b with
    | nil => simp at h
    | cons y u =>
      simp only [List.zipWith_cons_cons, List.sum_cons, List.length_cons]
      rw [ih u (by simpa using h), Finset.sum_range_succ']
      simp only [List.getD_cons_succ, List.getD_cons_zero]
      ring

/-- Reading a scaled histogram through `getD`: scaling commutes with the read
because the default 0 is a fixed point. -/
theorem getD_map_div (st : List ℚ) (s : ℚ) (i : Nat) :
    (st.map (fun x => x / s)).getD i 0 = st.getD i 0 / s := by
  rcases Nat.lt_or_ge i st.length with h | h
  · rw [List.getD_eq_getElem _ _ (by simpa using h), List.getElem_map,
      List.getD_eq_getElem _ _ h]
  · rw [List.getD_eq_default _ _ (by simpa using h), List.getD_eq_default _ _ h, zero_div]

/-- C3: on stats and summary entities of the configured length with non-zero
total mass, `error` returns the pair whose first component is
`Σ_i (1 - dist_i) * summary_i / count` for `dist` the stats histogram
normalized to total 1, and whose second component is `count`, the sum of the
summary histogram. -/
theorem c3_error_formula (g : Classification) (st sm : List ℚ)
    (hst : st.length = g.classCount) (hsm : sm.length = g.classCount)
    (_hstSum : st.sum ≠ 0) (_hsmSum : sm.sum ≠ 0) :
    g.error st sm = some
      ((Finset.sum (Finset.range g.classCount)
          (fun i => (1 - st.getD i 0 / st.sum) * sm.getD i 0)) / sm.sum, sm.sum) := by
  have hlen : (st.map (fun x => x / st.sum)).length = sm.length := by
    simp [hst, hsm]
  rw [Classification.error, bcast2, if_pos hlen]
  simp only [Option.map_some']
  refine congrArg some (Prod.ext ?_ rfl)
  show (List.zipWith (fun d t => (1 - d) * t) (st.map (fun x => x / st.sum)) sm).sum / sm.sum = _
  rw [zipWith_sum_eq _ _ _ hlen]
  have hl2 : (st.map (fun x => x / st.sum)).length = g.classCount := by simp [hst]
  rw [hl2]
  congr 1
  refine Finset.sum_congr rfl ?_
  intro i _
  rw [getD_map_div]

/-- Witness for C3: the spec's concrete scenario, error([8,2],[3,1]) = (0.35, 4). -/
theorem c3_error_formula_witness :
    (⟨2, 0⟩ : Classification).error [8, 2] [3, 1] = some (7 / 20, 4) := by
  rw [c3_error_formula ⟨2, 0⟩ [8, 2] [3, 1] rfl rfl (by norm_num) (by norm_num)]
  norm_num [Finset.sum_range_succ]

/-- A byte string whose length is not a multiple of 4 cannot be grouped into
4-byte words: `numpy.fromstring` raises. -/
theorem chunk4_none (s : List Nat) (h : s.length % 4 ≠ 0) : chunk4 s = none := by
  induction s using chunk4.induct with
  | case1 => simp at h
  | case2 b0 b1 b2 b3 rest ih =>
    have hr : rest.length % 4 ≠ 0 := by
      simp only [List.length_cons] at h
      omega
    simp [chunk4, ih hr]
  | case3 s h1 h2 => cases s with
    | nil => exact absurd rfl h1
    | cons a t => cases t with
      | nil => rfl
      | cons a2 t2 => cases t2 with
        | nil => rfl
        | cons a3 t3 => cases t3 with
          | nil => rfl
          | cons a4 t4 => exact absurd rfl (h2 a a2 a3 a4 t4)

/-- Entropy of the two-entry histogram of ones (what an 8-byte buffer of two
1.0 floats deserializes to) is exactly ln 2. -/
theorem entropy_ones_eq : (⟨3, 0⟩ : Classification).entropy [1, 1] = Real.log 2 := by
  have hf : ([1, 1] : List ℚ).filter (fun x => decide (histEps < x)) = [1, 1] := by
    norm_num [List.filter, histEps]
  rw [Classification.entropy, hf]
  norm_num
  rw [show ((1 : ℝ) / 2) = (2 : ℝ)⁻¹ by norm_num, Real.log_inv]
  ring

/-- C7, amended: deserialization fails only on byte lengths that are not a
multiple of 4; a buffer that is a multiple of 4 but not `4 * classCount` is
silently reinterpreted (see the counterexample). -/
theorem c7_fromstring_length_check (g : Classification) (s : List Nat) (es : FeatureSet)
    (index : List Nat) (w : Option (Nat → ℚ)) (h : s.length % 4 ≠ 0) :
    g.entropyBytes s = none ∧ g.updateStatsBytes s es index w = none := by
  have hc := chunk4_none s h
  constructor
  · simp [Classification.entropyBytes, fromstring, hc]
  · simp [Classification.updateStatsBytes, fromstring, hc]

/-- Witness for C7: a 3-byte buffer fails to deserialize in both operations. -/
theorem c7_fromstring_length_check_witness :
    (⟨3, 0⟩ : Classification).entropyBytes [0, 0, 0] = none
    ∧ (⟨3, 0⟩ : Classification).updateStatsBytes [0, 0, 0] (fun _ _ => 0) [0] none = none :=
  c7_fromstring_length_check ⟨3, 0⟩ [0, 0, 0] (fun _ _ => 0) [0] none (by decide)

/-- C7 counterexample: an 8-byte buffer (two float32 ones, little endian) with
`classCount = 3` is NOT `4 * classCount` bytes, yet nothing fails:
deserialization silently returns the 2-entry array, `entropy` computes a value
on it, and `updateStats` silently updates the truncated histogram. -/
theorem c7_silent_reinterpretation_counterexample :
    ([0, 0, 128, 63, 0, 0, 128, 63] : List Nat).length ≠ 4 * (⟨3, 0⟩ : Classification).classCount
    ∧ fromstring [0, 0, 128, 63, 0, 0, 128, 63] = some [1, 1]
    ∧ (⟨3, 0⟩ : Classification).entropyBytes [0, 0, 128, 63, 0, 0, 128, 63] = some (Real.log 2)
    ∧ (⟨3, 0⟩ : Classification).updateStatsBytes [0, 0, 128, 63, 0, 0, 128, 63]
        (fun _ _ => 0) [0] none = some [2, 1] := by
  have hfs : fromstring [0, 0, 128, 63, 0, 0, 128, 63] = some [1, 1] := by
    norm_num [fromstring, chunk4, decodeAll, decode4]
  refine ⟨by decide, hfs, ?_, ?_⟩
  · rw [Classification.entropyBytes, hfs, Option.map_some', entropy_ones_eq]
  · norm_num [Classification.updateStatsBytes, hfs, Classification.updateStats, bincount,
      labelWeightPairs, maxLab, binVal, sliceAdd, padTo, List.range_succ, List.replicate,
      List.zipWith]

/-- A list all of whose `getD` reads below its length are non-negative has only
non-negative members. -/
theorem mem_nonneg_of_getD {h : List ℚ} (hg : ∀ c, c < h.length → 0 ≤ h.getD c 0) :
    ∀ x ∈ h, 0 ≤ x := by
  intro x hx
  rcases List.mem_iff_getElem.1 hx with ⟨i, hi, rfl⟩
  have := hg i hi
  rwa [List.getD_eq_getElem _ _ hi] at this

/-- C9: under in-range labels, non-negative weights and (for the update
operations, which also need a nonempty index set) a well-formed input entity,
each of stats, summary, updateStats and updateSummary produces a histogram of
exactly classCount entries — serialized as 4 bytes per entry, so exactly
4 * classCount bytes with no header or padding — whose entries are all
non-negative and are the RAW per-class weight sums (for the updates, the old
entry plus the raw increment): no normalization is ever applied. -/
theorem c9_histogram_shape_invariant (g : Classification) (es : FeatureSet)
    (index : List Nat) (w : Option (Nat → ℚ)) (s : List ℚ)
    (hlab : ∀ i ∈ index, es g.channel i < g.classCount)
    (hw : ∀ f, w = some f → ∀ i, 0 ≤ f i)
    (hs : s.length = g.classCount ∧ ∀ x ∈ s, 0 ≤ x) :
    (∃ h, g.stats es index w = some h ∧ h.length = g.classCount ∧
        serializedByteLength h = 4 * g.classCount ∧ (∀ x ∈ h, 0 ≤ x) ∧
        ∀ c, h.getD c 0 = binVal (labelWeightPairs g.channel es index w) c)
    ∧ (index ≠ [] → ∃ h, g.summary es index w = some h ∧ h.length = g.classCount ∧
        serializedByteLength h = 4 * g.classCount ∧ (∀ x ∈ h, 0 ≤ x) ∧
        ∀ c, h.getD c 0 = binVal (labelWeightPairs g.channel es index w) c)
    ∧ (index ≠ [] → ∃ h, g.updateStats s es index w = some h ∧ h.length = g.classCount ∧
        serializedByteLength h = 4 * g.classCount ∧ (∀ x ∈ h, 0 ≤ x) ∧
        ∀ c, h.getD c 0 = s.getD c 0 + binVal (labelWeightPairs g.channel es index w) c)
    ∧ (index ≠ [] → ∃ h, g.updateSummary s es index w = some h ∧ h.length = g.classCount ∧
        serializedByteLength h = 4 * g.classCount ∧ (∀ x ∈ h, 0 ≤ x) ∧
        ∀ c, h.getD c 0 = s.getD c 0 + binVal (labelWeightPairs g.channel es index w) c) := by
  obtain ⟨hslen, hsnn⟩ := hs
  have hpnn : ∀ p ∈ labelWeightPairs g.channel es index w, 0 ≤ p.2 :=
    labelWeightPairs_snd_nonneg hw
  have hupd : index ≠ [] → ∃ h, g.updateStats s es index w = some h ∧
      h.length = g.classCount ∧ serializedByteLength h = 4 * g.classCount ∧
      (∀ x ∈ h, 0 ≤ x) ∧
      ∀ c, h.getD c 0 = s.getD c 0 + binVal (labelWeightPairs g.channel es index w) c := by
    intro hne
    obtain ⟨h, h1, h2, h3⟩ := updateStats_spec g s es index w hne hlab hslen
    refine ⟨h, h1, h2, by simp [serializedByteLength, h2], ?_, h3⟩
    refine mem_nonneg_of_getD ?_
    intro c hc
    rw [h3 c]
    have hsc : 0 ≤ s.getD c 0 := by
      rcases Nat.lt_or_ge c s.length with hcs | hcs
      · exact hsnn _ (by rw [List.getD_eq_getElem _ _ hcs]; exact List.getElem_mem hcs)
      · rw [List.getD_eq_default _ _ hcs]
    have := binVal_nonneg hpnn c
    linarith
  refine ⟨?_, ?_, hupd, ?_⟩
  · obtain ⟨h, h1, h2, h3⟩ := stats_spec g es index w hlab
    refine ⟨h, h1, h2, by simp [serializedByteLength, h2], ?_, h3⟩
    refine mem_nonneg_of_getD ?_
    intro c _
    rw [h3 c]
    exact binVal_nonneg hpnn c
  · intro hne
    obtain ⟨h, h1, h2, h3⟩ := stats_spec g es index w hlab
    have hsum : g.summary es index w = g.stats es index w := by
      simp [Classification.summary, Classification.stats, hne]
    refine ⟨h, by rw [hsum]; exact h1, h2, by simp [serializedByteLength, h2], ?_, h3⟩
    refine mem_nonneg_of_getD ?_
    intro c _
    rw [h3 c]
    exact binVal_nonneg hpnn c
  · intro hne
    have hss : g.updateSummary s es index w = g.updateStats s es index w := rfl
    rw [hss]
    exact hupd hne

/-- Witness for C9: the six-exemplar scenario with classCount 3, both for a
fresh stats entity and for an update of the all-ones entity. -/
theorem c9_histogram_shape_invariant_witness :
    (∃ h, (⟨3, 0⟩ : Classification).stats (fun _ i => [0, 0, 1, 2, 2, 2].getD i 0)
        [0, 1, 2, 3, 4, 5] none = some h ∧ h.length = 3 ∧
        serializedByteLength h = 12 ∧ ∀ x ∈ h, 0 ≤ x)
    ∧ (∃ h, (⟨3, 0⟩ : Classification).updateStats [1, 1, 1]
        (fun _ i => [0, 0, 1, 2, 2, 2].getD i 0) [0, 1, 2, 3, 4, 5] none = some h ∧
        h.length = 3 ∧ serializedByteLength h = 12 ∧ ∀ x ∈ h, 0 ≤ x) := by
  have hs : ([1, 1, 1] : List ℚ).length = (⟨3, 0⟩ : Classification).classCount ∧
      ∀ x ∈ ([1, 1, 1] : List ℚ), 0 ≤ x := by
    refine ⟨rfl, ?_⟩
    intro x hx
    simp only [List.mem_cons, List.not_mem_nil, or_false] at hx
    rcases hx with rfl | rfl | rfl <;> norm_num
  obtain ⟨⟨h1, e1, l1, b1, n1, -⟩, -, hu, -⟩ :=
    c9_histogram_shape_invariant ⟨3, 0⟩ (fun _ i => [0, 0, 1, 2, 2, 2].getD i 0)
      [0, 1, 2, 3, 4, 5] none [1, 1, 1] (by decide) (fun f hf => by cases hf) hs
  obtain ⟨h2, e2, l2, b2, n2, -⟩ := hu (by decide)
  refine ⟨⟨h1, e1, ?_, ?_, n1⟩, ⟨h2, e2, ?_, ?_, n2⟩⟩
  · exact l1
  · exact b1
  · exact l2
  · exact b2

/-- Division of finite carrier values by a non-zero divisor is exact rational
division. -/
theorem qfDiv_num (a b : ℚ) (hb : b ≠ 0) : QF.div (QF.num a) (QF.num b) = QF.num (a / b) := by
  simp [QF.div, hb]

/-- Addition of finite carrier values is exact rational addition. -/
theorem qfAdd_num (a b : ℚ) : QF.add (QF.num a) (QF.num b) = QF.num (a + b) := rfl

/-- A left fold of carrier additions over finite values stays finite and sums
exactly. -/
theorem foldl_qfAdd_num (l : List ℚ) (a : ℚ) :
    List.foldl QF.add (QF.num a) (l.map QF.num) = QF.num (a + l.sum) := by
  induction l generalizing a with
  | nil => simp
  | cons x t ih =>
    simp only [List.map_cons, List.foldl_cons, qfAdd_num]
    rw [ih]
    congr 1
    rw [List.sum_cons]
    ring

/-- `numpy.sum` of a finite carrier vector is the exact rational sum. -/
theorem qfSum_map_num (l : List ℚ) : qfSum (l.map QF.num) = QF.num l.sum := by
  rw [qfSum, foldl_qfAdd_num]
  congr 1
  ring

/-- Wrapping a rational-valued map into the carrier commutes with composition. -/
theorem map_num_comp (l : List Nat) (F : Nat → ℚ) :
    l.map (fun c => QF.num (F c)) = (l.map F).map QF.num := by
  simp [List.map_map, Function.comp]

/-- Elementwise carrier addition of a range-indexed finite vector and a
normalized entity. -/
theorem zipWith_qfAdd_range (n : Nat) (f : Nat → ℚ) (s : List ℚ) (sc : ℚ)
    (hs : s.length = n) :
    List.zipWith QF.add ((List.range n).map (fun c => QF.num (f c)))
        (s.map (fun x => QF.num (x / sc))) =
      (List.range n).map (fun c => QF.num (f c + s.getD c 0 / sc)) := by
  refine List.ext_getElem (by simp [hs]) ?_
  intro i h1 h2
  have hin : i < n := by simpa using h2
  have his : i < s.length := by omega
  simp only [List.getElem_zipWith, List.getElem_map, List.getElem_range]
  rw [qfAdd_num, List.getD_eq_getElem s 0 his]

/-- The accumulation loop of `answer` on entities of length `cc` with non-zero
sums: starting from any finite range-indexed accumulator it stays finite and
adds the per-entity normalized histograms pointwise. -/
theorem probAccum_spec (cc : Nat) (sl : List (List ℚ)) (f : Nat → ℚ)
    (hsl : ∀ s ∈ sl, s.length = cc ∧ s.sum ≠ 0) :
    probAccum ((List.range cc).map (fun c => QF.num (f c))) sl =
      some ((List.range cc).map (fun c =>
        QF.num (f c + (sl.map (fun s => s.getD c 0 / s.sum)).sum))) := by
  induction sl generalizing f with
  | nil => simp [probAccum]
  | cons s t ih =>
    obtain ⟨hlen, hsum⟩ := hsl s (List.mem_cons_self s t)
    have hdist : s.map (fun x => QF.div (QF.num x) (QF.num s.sum)) =
        s.map (fun x => QF.num (x / s.sum)) :=
      List.map_congr_left (fun x _ => qfDiv_num x s.sum hsum)
    rw [probAccum, hdist, if_pos (by simp [hlen]), zipWith_qfAdd_range cc f s s.sum hlen,
      ih (fun c => f c + s.getD c 0 / s.sum) (fun u hu => hsl u (List.mem_cons_of_mem s hu))]
    congr 1
    refine List.map_congr_left ?_
    intro c _
    rw [List.map_cons, List.sum_cons, add_assoc]

/-- Sum of `l.getD c 0` over the range of the length recovers the list sum. -/
theorem sum_getD_range (l : List ℚ) :
    ((List.range l.length).map (fun c => l.getD c 0)).sum = l.sum := by
  induction l with
  | nil => simp
  | cons x t ih =>
    rw [List.length_cons, List.range_succ_eq_map, List.map_cons, List.sum_cons, List.map_map]
    have hcomp : ((fun c => (x :: t).getD c 0) ∘ Nat.succ) = fun c => t.getD c 0 := by
      funext c
      simp
    rw [hcomp, ih, List.getD_cons_zero, List.sum_cons]

/-- Sum of a pointwise addition of two range-indexed families. -/
theorem list_sum_map_add (l : List Nat) (a b : Nat → ℚ) :
    (l.map (fun c => a c + b c)).sum = (l.map a).sum + (l.map b).sum := by
  induction l with
  | nil => simp
  | cons x t ih =>
    simp only [List.map_cons, List.sum_cons, ih]
    ring

/-- A normalized entity of length `cc` with non-zero sum contributes exactly 1
to the grand total. -/
theorem normalized_entity_sum (cc : Nat) (s : List ℚ) (h : s.length = cc) (hs : s.sum ≠ 0) :
    ((List.range cc).map (fun c => s.getD c 0 / s.sum)).sum = 1 := by
  have hfun : (fun c => s.getD c 0 / s.sum) = fun c => s.getD c 0 * (s.sum)⁻¹ := by
    funext c
    rw [div_eq_mul_inv]
  rw [hfun, List.sum_map_mul_right, ← h, sum_getD_range, mul_inv_cancel₀ hs]

/-- The grand total of the accumulated distribution equals the number of
entities (each normalized entity sums to 1). -/
theorem grand_total_eq (cc : Nat) (sl : List (List ℚ))
    (hsl : ∀ s ∈ sl, s.length = cc ∧ s.sum ≠ 0) :
    ((List.range cc).map (fun c => (sl.map (fun s => s.getD c 0 / s.sum)).sum)).sum =
      (sl.length : ℚ) := by
  induction sl with
  | nil => simp
  | cons s t ih =>
    obtain ⟨hlen, hsum⟩ := hsl s (List.mem_cons_self s t)
    have hsplit : (fun c => ((s :: t).map (fun s2 => s2.getD c 0 / s2.sum)).sum) =
        fun c => s.getD c 0 / s.sum + (t.map (fun s2 => s2.getD c 0 / s2.sum)).sum := by
      funext c
      rw [List.map_cons, List.sum_cons]
    rw [hsplit, list_sum_map_add, normalized_entity_sum cc s hlen hsum,
      ih (fun u hu => hsl u (List.mem_cons_of_mem s hu))]
    simp
    ring

/-- `probOf` on a nonempty list of entities of the configured length with
non-zero sums: the combined distribution in closed form — each entity
normalized by its own sum, summed pointwise, and renormalized by the grand
total of that sum. -/
theorem probOf_spec (g : Classification) (sl : List (List ℚ)) (hne : sl ≠ [])
    (hsl : ∀ s ∈ sl, s.length = g.classCount ∧ s.sum ≠ 0) :
    g.probOf sl = some ((List.range g.classCount).map (fun c =>
      QF.num ((sl.map (fun s => s.getD c 0 / s.sum)).sum /
        ((List.range g.classCount).map (fun c2 =>
          (sl.map (fun s => s.getD c2 0 / s.sum)).sum)).sum))) := by
  have hrepl : List.replicate g.classCount (QF.num 0) =
      (List.range g.classCount).map (fun c => QF.num ((fun _ => (0 : ℚ)) c)) := by
    rw [map_num_comp]
    simp [List.map_const']
  rw [Classification.probOf, hrepl,
    probAccum_spec g.classCount sl (fun _ => (0 : ℚ)) hsl]
  simp only [zero_add, Option.map_some']
  congr 1
  have hD : ((List.range g.classCount).map
      (fun c2 => (sl.map (fun s => s.getD c2 0 / s.sum)).sum)).sum = (sl.length : ℚ) :=
    grand_total_eq g.classCount sl hsl
  have hDne : ((List.range g.classCount).map
      (fun c2 => (sl.map (fun s => s.getD c2 0 / s.sum)).sum)).sum ≠ 0 := by
    rw [hD]
    have : sl.length ≠ 0 := fun h0 => hne (List.length_eq_zero.1 h0)
    exact_mod_cast Nat.cast_ne_zero.2 this
  have hq : qfSum ((List.range g.classCount).map (fun c =>
      QF.num ((sl.map (fun s => s.getD c 0 / s.sum)).sum))) =
      QF.num (((List.range g.classCount).map (fun c2 =>
        (sl.map (fun s => s.getD c2 0 / s.sum)).sum)).sum) := by
    rw [map_num_comp, qfSum_map_num]
  rw [hq]
  refine List.ext_getElem (by simp) ?_
  intro i h1 h2
  simp only [List.getElem_map, List.getElem_range]
  rw [qfDiv_num _ _ hDne]

/-- Invariant of the argmax loop on finite values: starting from a running
maximum that is first-maximal among the first `i` entries, the loop returns
the first-maximal index of the whole list. -/
theorem argmaxGo_num_spec (q : List ℚ) (tail : List ℚ) :
    ∀ (best i : Nat) (bv : ℚ),
      q.drop i = tail → best < q.length → q.getD best 0 = bv →
      (∀ j, j < i → q.getD j 0 ≤ bv) → (∀ j, j < best → q.getD j 0 < bv) →
      (argmaxGo best (QF.num bv) i (tail.map QF.num) < q.length ∧
        (∀ j, j < q.length →
          q.getD j 0 ≤ q.getD (argmaxGo best (QF.num bv) i (tail.map QF.num)) 0) ∧
        (∀ j, j < argmaxGo best (QF.num bv) i (tail.map QF.num) →
          q.getD j 0 < q.getD (argmaxGo best (QF.num bv) i (tail.map QF.num)) 0)) := by
  induction tail with
  | nil =>
    intro best i bv hdrop hbest hbv hle hstr
    have hlen : q.length ≤ i := by
      have := congrArg List.length hdrop
      simp only [List.length_drop, List.length_nil] at this
      omega
    simp only [List.map_nil, argmaxGo]
    refine ⟨hbest, ?_, ?_⟩
    · intro j hj
      rw [hbv]
      exact hle j (by omega)
    · intro j hj
      rw [hbv]
      exact hstr j hj
  | cons x xs ih =>
    intro best i bv hdrop hbest hbv hle hstr
    have hi : i < q.length := by
      have := congrArg List.length hdrop
      simp only [List.length_drop, List.length_cons] at this
      omega
    have hx : q.getD i 0 = x := by
      have h0 : (q.drop i)[0]? = some x := by
        rw [hdrop]
        simp
      rw [List.getElem?_drop, Nat.add_zero] at h0
      rw [List.getD_eq_getElem?_getD, h0]
      rfl
    have hxs : q.drop (i + 1) = xs := by
      have := congrArg (List.drop 1) hdrop
      simpa [List.drop_drop, Nat.add_comm] using this
    simp only [List.map_cons, argmaxGo, QF.gtb]
    by_cases hlt : bv < x
    · rw [if_pos (by simpa using hlt)]
      exact ih i (i + 1) x hxs hi hx
        (fun j hj => by
          rcases Nat.lt_or_ge j i with hji | hji
          · exact le_of_lt (lt_of_le_of_lt (hle j hji) hlt)
          · have : j = i := by omega
            rw [this, hx])
        (fun j hj => lt_of_le_of_lt (hle j hj) hlt)
    · rw [if_neg (by simpa using hlt)]
      exact ih best (i + 1) bv hxs hbest hbv
        (fun j hj => by
          rcases Nat.lt_or_ge j i with hji | hji
          · exact hle j hji
          · have : j = i := by omega
            rw [this, hx]
            exact le_of_not_lt hlt)
        hstr

/-- `numpy.argmax` on a nonempty finite vector returns an index attaining the
maximum, with every earlier entry strictly smaller (lowest-index tie
resolution). -/
theorem argmax_map_num (q : List ℚ) (hq : q ≠ []) :
    argmaxQF (q.map QF.num) < q.length ∧
      (∀ j, j < q.length → q.getD j 0 ≤ q.getD (argmaxQF (q.map QF.num)) 0) ∧
      (∀ j, j < argmaxQF (q.map QF.num) →
        q.getD j 0 < q.getD (argmaxQF (q.map QF.num)) 0) := by
  cases q with
  | nil => exact absurd rfl hq
  | cons a t =>
    have h := argmaxGo_num_spec (a :: t) t 0 1 a (by simp) (by simp) (by simp)
      (fun j hj => by
        have : j = 0 := by omega
        rw [this]
        simp)
      (fun j hj => by omega)
    simpa only [argmaxQF, List.map_cons] using h

/-- `make_answer` on the name 'best' returns the argmax of the distribution. -/
theorem makeAnswer_best (p : List QF) : makeAnswer p "best" = Ans.bestOf (argmaxQF p) := by
  rw [makeAnswer, if_neg (by decide), if_pos rfl]

/-- C4: on a nonempty stats list whose entities have the configured length and
non-zero total mass, `answer` computes the combined distribution `P` by
normalizing each entity's histogram to sum 1, summing these per-entity
distributions, and normalizing the sum again; `'prob'` returns exactly that
distribution (as finite float values), and `'best'` returns the index of its
maximum entry with ties resolved to the lowest index (every earlier entry is
strictly smaller). -/
theorem c4_answer_combination (g : Classification) (sl : List (List ℚ)) (hne : sl ≠ [])
    (hsl : ∀ s ∈ sl, s.length = g.classCount ∧ s.sum ≠ 0) :
    ∀ P : Nat → ℚ,
      (∀ c, c < g.classCount →
        P c = (sl.map (fun s => s.getD c 0 / s.sum)).sum /
          ((List.range g.classCount).map (fun c2 =>
            (sl.map (fun s => s.getD c2 0 / s.sum)).sum)).sum) →
      (g.answer sl "prob" =
        some (Ans.probOf ((List.range g.classCount).map (fun c => QF.num (P c)))))
      ∧ (∃ b, g.answer sl "best" = some (Ans.bestOf b) ∧ b < g.classCount ∧
          (∀ j, j < g.classCount → P j ≤ P b) ∧ ∀ j, j < b → P j < P b) := by
  intro P hP
  have hcc : 0 < g.classCount := by
    rcases sl with _ | ⟨s, t⟩
    · exact absurd rfl hne
    · obtain ⟨hlen, hsum⟩ := hsl s (List.mem_cons_self s t)
      have hsne : s ≠ [] := by
        intro h0
        rw [h0] at hsum
        exact hsum rfl
      have : 0 < s.length := List.length_pos.2 hsne
      omega
  have hprob : g.probOf sl =
      some ((List.range g.classCount).map (fun c => QF.num (P c))) := by
    rw [probOf_spec g sl hne hsl]
    congr 1
    refine List.map_congr_left ?_
    intro c hc
    rw [hP c (List.mem_range.1 hc)]
  constructor
  · rw [Classification.answer, Classification.answerMulti, if_pos (by simp), hprob]
    simp [makeAnswer]
  · have hmap : (List.range g.classCount).map (fun c => QF.num (P c)) =
        ((List.range g.classCount).map P).map QF.num := map_num_comp _ P
    have hqne : (List.range g.classCount).map P ≠ [] := by
      simp [List.range_eq_nil]
      omega
    obtain ⟨hblt, hle, hstr⟩ := argmax_map_num ((List.range g.classCount).map P) hqne
    have hqlen : ((List.range g.classCount).map P).length = g.classCount := by simp
    have hgetD : ∀ j, j < g.classCount →
        ((List.range g.classCount).map P).getD j 0 = P j := by
      intro j hj
      rw [getD_range_map, if_pos hj]
    refine ⟨argmaxQF (((List.range g.classCount).map P).map QF.num), ?_, ?_, ?_, ?_⟩
    · rw [Classification.answer, Classification.answerMulti, if_pos (by simp), hprob]
      simp only [Option.map_some', List.map_cons, List.map_nil, makeAnswer_best]
      rw [hmap]
      rfl
    · omega
    · intro j hj
      have h1 := hle j (by omega)
      rwa [hgetD j hj, hgetD _ (by omega)] at h1
    · intro j hj
      have h1 := hstr j hj
      have hjcc : j < g.classCount := by omega
      rwa [hgetD j hjcc, hgetD _ (by omega)] at h1

/-- Witness for C4: the spec's two-leaf scenario [[4,0]], [[0,4]] with
classCount 2 — combined probability [1/2, 1/2] and best index 0 (tie broken
to the lowest index). -/
theorem c4_answer_combination_witness :
    (⟨2, 0⟩ : Classification).answer [[4, 0], [0, 4]] "prob" =
      some (Ans.probOf [QF.num (1 / 2), QF.num (1 / 2)])
    ∧ (⟨2, 0⟩ : Classification).answer [[4, 0], [0, 4]] "best" = some (Ans.bestOf 0) := by
  have h := c4_answer_combination ⟨2, 0⟩ [[4, 0], [0, 4]] (by decide)
    (by
      intro s hs
      simp only [List.mem_cons, List.not_mem_nil, or_false] at hs
      rcases hs with rfl | rfl <;> exact ⟨rfl, by norm_num⟩)
    (fun _ => (1 : ℚ) / 2)
    (by
      intro c hc
      interval_cases c <;> norm_num [List.range_succ])
  obtain ⟨hp, b, hb, hblt, hle, hstr⟩ := h
  constructor
  · rw [hp]
    norm_num [List.range_succ]
  · have hb0 : b = 0 := by
      by_contra hb0
      have := hstr 0 (by omega)
      norm_num at this
    rw [hb0] at hb
    exact hb

/-- Sum over a filtered-then-mapped list as an indexed sum over the original
range, with the filter as a pointwise guard. -/
theorem filter_map_sum_eq (pb : ℚ → Bool) (F : ℚ → ℝ) (l : List ℚ) :
    ((l.filter pb).map F).sum =
      Finset.sum (Finset.range l.length)
        (fun i => if pb (l.getD i 0) then F (l.getD i 0) else 0) := by
  induction l with
  | nil => simp
  | cons x t ih =>
    rw [List.length_cons, Finset.sum_range_succ']
    simp only [List.getD_cons_succ, List.getD_cons_zero]
    rw [← ih]
    by_cases hx : pb x = true
    · rw [List.filter_cons_of_pos hx, List.map_cons, List.sum_cons, if_pos hx]
      ring
    · rw [List.filter_cons_of_neg (by simpa using hx), if_neg hx]
      ring

/-- Closed form of the entropy of the histogram [2,1,3] in terms of ln 2 and
ln (9/8). -/
theorem entropy_213_eq :
    (⟨3, 0⟩ : Classification).entropy [2, 1, 3] =
      (17 / 12 : ℝ) * Real.log 2 + (1 / 4 : ℝ) * Real.log (9 / 8) := by
  have hf : ([2, 1, 3] : List ℚ).filter (fun x => decide (histEps < x)) = [2, 1, 3] := by
    norm_num [List.filter, histEps]
  rw [Classification.entropy, hf]
  norm_num
  have l12 : Real.log ((1 : ℝ) / 2) = -Real.log 2 := by
    rw [one_div, Real.log_inv]
  have l13 : Real.log ((1 : ℝ) / 3) = -Real.log 3 := by
    rw [one_div, Real.log_inv]
  have l16 : Real.log ((1 : ℝ) / 6) = -(Real.log 2 + Real.log 3) := by
    rw [one_div, Real.log_inv, show (6 : ℝ) = 2 * 3 by norm_num,
      Real.log_mul (by norm_num) (by norm_num)]
  have l98 : Real.log ((9 : ℝ) / 8) = 2 * Real.log 3 - 3 * Real.log 2 := by
    rw [Real.log_div (by norm_num) (by norm_num), show (9 : ℝ) = 3 ^ 2 by norm_num,
      show (8 : ℝ) = 2 ^ 3 by norm_num, Real.log_pow, Real.log_pow]
    push_cast
    ring
  rw [l12, l13, l16, l98]
  ring

/-- Numeric bounds for ln (9/8). -/
theorem log98_bounds : (1 / 9 : ℝ) ≤ Real.log (9 / 8) ∧ Real.log (9 / 8) ≤ 1 / 8 := by
  constructor
  · have h := Real.one_sub_inv_le_log_of_pos (show (0 : ℝ) < 9 / 8 by norm_num)
    have hinv : ((9 : ℝ) / 8)⁻¹ = 8 / 9 := by norm_num
    rw [hinv] at h
    linarith
  · have h := Real.log_le_sub_one_of_pos (show (0 : ℝ) < 9 / 8 by norm_num)
    linarith

/-- The entropy of the histogram [1e-7, 1, 1] computed by the code is STRICTLY
GREATER than ln 2, which is the value the spec's description would give (the
sub-threshold entry is discarded but still contributes to the normalizing sum,
so the retained probabilities sum to slightly less than 1). -/
theorem entropy_eps_gt :
    Real.log 2 < (⟨3, 0⟩ : Classification).entropy [1 / 10000000, 1, 1] := by
  have hf : ([1 / 10000000, 1, 1] : List ℚ).filter (fun x => decide (histEps < x)) =
      [1, 1] := by
    norm_num [List.filter, histEps]
  rw [Classification.entropy, hf]
  norm_num
  have hlogp : Real.log ((10000000 : ℝ) / 20000001) =
      -(Real.log 2 + Real.log ((20000001 : ℝ) / 20000000)) := by
    rw [show (10000000 : ℝ) / 20000001 = ((20000001 : ℝ) / 10000000)⁻¹ by norm_num,
      Real.log_inv, show (20000001 : ℝ) / 10000000 = 2 * (20000001 / 20000000) by norm_num,
      Real.log_mul (by norm_num) (by norm_num)]
  have hMlow : (1 : ℝ) / 20000001 ≤ Real.log ((20000001 : ℝ) / 20000000) := by
    have h := Real.one_sub_inv_le_log_of_pos
      (show (0 : ℝ) < 20000001 / 20000000 by norm_num)
    have hinv : ((20000001 : ℝ) / 20000000)⁻¹ = 20000000 / 20000001 := by norm_num
    rw [hinv] at h
    linarith
  rw [hlogp]
  linarith [Real.log_two_lt_d9]

/-- C2 counterexample.  First conjunct: on the spec's own scenario, the
histogram [2,1,3], the code's entropy exceeds 0.9 — it is approximately
1.0114 = (1/2) ln 3 + (2/3) ln 2 — so it is NOT approximately 0.8675 as
claimed.  Second conjunct: on a histogram with a positive entry below the 1e-6
threshold, the code's entropy strictly exceeds -Σ p_i ln p_i computed from
probabilities renormalized over the retained classes (which here is exactly
ln 2, from [1,1] → [1/2, 1/2]): the code divides by the TOTAL mass including
the discarded entry, so the retained p_i do not sum to 1. -/
theorem c2_entropy_counterexample :
    (9 / 10 : ℝ) < (⟨3, 0⟩ : Classification).entropy [2, 1, 3]
    ∧ Real.log 2 < (⟨3, 0⟩ : Classification).entropy [1 / 10000000, 1, 1] := by
  constructor
  · rw [entropy_213_eq]
    have h98 := log98_bounds.1
    linarith [Real.log_two_gt_d9]
  · exact entropy_eps_gt

/-- C2, amended: entropy equals the negated sum, over the classes whose
histogram mass exceeds 1e-6, of p_i ln p_i where p_i is the class mass divided
by the TOTAL histogram mass (so the retained p_i sum to 1 exactly when every
discarded entry is zero); and on the concrete histogram [2,1,3] the value lies
strictly between 1.009 and 1.014 (it is (1/2) ln 3 + (2/3) ln 2, approximately
1.0114), not 0.8675. -/
theorem c2_entropy_formula :
    (∀ (g : Classification) (hist : List ℚ),
      g.entropy hist = -(Finset.sum (Finset.range hist.length) (fun i =>
        if histEps < hist.getD i 0 then
          ((hist.getD i 0 / hist.sum : ℚ) : ℝ) * Real.log ((hist.getD i 0 / hist.sum : ℚ) : ℝ)
        else 0)))
    ∧ (1009 / 1000 : ℝ) < (⟨3, 0⟩ : Classification).entropy [2, 1, 3]
    ∧ (⟨3, 0⟩ : Classification).entropy [2, 1, 3] < 1014 / 1000 := by
  refine ⟨?_, ?_, ?_⟩
  · intro g hist
    rw [Classification.entropy,
      filter_map_sum_eq (fun x => decide (histEps < x))
        (fun x => ((x / hist.sum : ℚ) : ℝ) * Real.log ((x / hist.sum : ℚ) : ℝ)) hist]
    congr 1
    refine Finset.sum_congr rfl ?_
    intro i _
    simp only [decide_eq_true_eq]
  · rw [entropy_213_eq]
    have h98 := log98_bounds.1
    linarith [Real.log_two_gt_d9]
  · rw [entropy_213_eq]
    have h98 := log98_bounds.2
    linarith [Real.log_two_lt_d9]
